import Mathlib

/-!
Verification of the numerical core of libsidplayfp: the `Integrator8580`
nonlinear circuit integrator (`Integrator8580.h`) and the `SincResampler`
band-limited sample-rate converter (`SincResampler.cpp`).

C `double` values are modelled as real numbers, C `int` / `unsigned int`
arithmetic as integer arithmetic with explicit reduction modulo `2 ^ 32`
where the source relies on machine-width wrap-around, and arithmetic right
shifts (`>>`) as flooring division by the corresponding power of two.
-/

/-- Arithmetic right shift of a (two's complement) machine integer:
`x >> n` floors towards negative infinity. -/
def asr (x : ℤ) (n : ℕ) : ℤ := Int.fdiv x (2 ^ n)

/-- Reduction of an integer to the value of a C `unsigned int` (32 bits). -/
def toUInt32 (x : ℤ) : ℤ := x % (2 ^ 32)

/-- Value of `static_cast<int>` applied to a 32-bit unsigned value:
two's-complement reinterpretation of the low 32 bits. -/
def toInt32 (x : ℤ) : ℤ :=
  if x % (2 ^ 32) < 2 ^ 31 then x % (2 ^ 32) else x % (2 ^ 32) - 2 ^ 32

/-- Value of a C cast from `double` to an integer type: truncation toward
zero (defined behaviour only when the value fits, which each call site's
assertion guarantees). -/
noncomputable def truncI (x : ℝ) : ℤ := if 0 ≤ x then ⌊x⌋ else -⌊-x⌋

/-- Truncating (toward-zero) integer division, the semantics of C `/` on
`int`. -/
def tdivI (a b : ℤ) : ℤ := if 0 ≤ a then a / b else -(-a / b)

/-- State of one `Integrator8580` instance (`Integrator8580.h`).
`opamp_rev` is the shared 65536-entry reverse op-amp transfer table
(entries are `unsigned short` values); `vx`, `vc` are the mutable
fixed-point state, `nVgt` and `n_dac` the setter-controlled parameters,
and the five real fields the immutable per-instance constants. -/
structure Integrator where
  opamp_rev : ℤ → ℤ
  vx : ℤ
  vc : ℤ
  nVgt : ℤ
  n_dac : ℤ
  voice_DC_voltage : ℝ
  Vth : ℝ
  nKp : ℝ
  vmin : ℝ
  N16 : ℝ

/-- The fixed-point value computed inside `Integrator8580::setFc`:
`tmp = (1 << 13) * nKp * wl`. -/
noncomputable def Integrator.setFcVal (σ : Integrator) (wl : ℝ) : ℝ :=
  (2 ^ 13 : ℝ) * σ.nKp * wl

/-- The assertion of `Integrator8580::setFc`:
`assert(tmp > -0.5 && tmp < 65535.5)`. -/
def Integrator.setFcOK (σ : Integrator) (wl : ℝ) : Prop :=
  σ.setFcVal wl > -0.5 ∧ σ.setFcVal wl < 65535.5

/-- `Integrator8580::setFc(wl)`: store the rounded normalized current
factor in `n_dac`, leaving every other field unchanged. -/
noncomputable def Integrator.setFc (σ : Integrator) (wl : ℝ) : Integrator :=
  { σ with n_dac := truncI (σ.setFcVal wl + 0.5) }

/-- The fixed-point value computed inside `Integrator8580::setV`:
`tmp = N16 * (voice_DC_voltage * v - Vth - vmin)`. -/
noncomputable def Integrator.setVVal (σ : Integrator) (v : ℝ) : ℝ :=
  σ.N16 * (σ.voice_DC_voltage * v - σ.Vth - σ.vmin)

/-- The assertions of `Integrator8580::setV`:
`assert(v > 1.0 && v < 2.0)` followed by
`assert(tmp > -0.5 && tmp < 65535.5)`. -/
def Integrator.setVOK (σ : Integrator) (v : ℝ) : Prop :=
  v > 1 ∧ v < 2 ∧ σ.setVVal v > -0.5 ∧ σ.setVVal v < 65535.5

/-- `Integrator8580::setV(v)`: store the rounded normalized gate voltage
in `nVgt`, leaving every other field unchanged. -/
noncomputable def Integrator.setV (σ : Integrator) (v : ℝ) : Integrator :=
  { σ with nVgt := truncI (σ.setVVal v + 0.5) }

/-- Entry assertion of `Integrator8580::solve`: `assert(vx < nVgt)`. -/
def Integrator.solvePre (σ : Integrator) : Prop := σ.vx < σ.nVgt

/-- `Integrator8580::solve(vi)`, translated with the source's machine
arithmetic: `Vgst`, `Vgdt` and their squares are `unsigned int`
computations (reduction modulo `2 ^ 32`), the difference of the squares is
reinterpreted as a signed 32-bit value, and `>>` is an arithmetic shift.
Returns the updated state and the returned `vo`. -/
def Integrator.solve (σ : Integrator) (vi : ℤ) : Integrator × ℤ :=
  let Vgst : ℤ := toUInt32 (σ.nVgt - σ.vx)
  let Vgdt : ℤ := if vi < σ.nVgt then toUInt32 (σ.nVgt - vi) else 0
  let Vgst_2 : ℤ := toUInt32 (Vgst * Vgst)
  let Vgdt_2 : ℤ := toUInt32 (Vgdt * Vgdt)
  let n_I_dac : ℤ := σ.n_dac * asr (toInt32 (Vgst_2 - Vgdt_2)) 15
  let vc' : ℤ := σ.vc + n_I_dac
  let tmp : ℤ := asr vc' 15 + 2 ^ 15
  let vx' : ℤ := σ.opamp_rev tmp
  ({ σ with vx := vx', vc := vc' }, vx' - asr vc' 14)

/-- Internal assertion of `Integrator8580::solve`:
`assert(tmp < (1 << 16))` on the table index. -/
def Integrator.solveIdxOK (σ : Integrator) (vi : ℤ) : Prop :=
  asr ((σ.solve vi).1.vc) 15 + 2 ^ 15 < 2 ^ 16

/-- The step claimed by the specification for `Integrator8580::solve`,
read in exact (unbounded) integer arithmetic:
`Vgst = nVgt - vx`, `Vgdt = max 0 (nVgt - vi)`,
`vc += n_dac * ((Vgst^2 - Vgdt^2) >> 15)`,
`vx = opamp_rev[(vc >> 15) + 2^15]`, return `vx - (vc >> 14)`. -/
def Integrator.solveSpec (σ : Integrator) (vi : ℤ) : Integrator × ℤ :=
  let Vgst : ℤ := σ.nVgt - σ.vx
  let Vgdt : ℤ := max 0 (σ.nVgt - vi)
  let vc' : ℤ := σ.vc + σ.n_dac * asr (Vgst * Vgst - Vgdt * Vgdt) 15
  let vx' : ℤ := σ.opamp_rev (asr vc' 15 + 2 ^ 15)
  ({ σ with vx := vx', vc := vc' }, vx' - asr vc' 14)

/-- A concrete integrator state used to separate the machine-arithmetic
semantics of `solve` from its exact-arithmetic description: the largest
representable `nVgt` with `vx = 0` makes `Vgst * Vgst` exceed `2 ^ 31`. -/
def intgWide : Integrator :=
  { opamp_rev := fun _ => 0, vx := 0, vc := 0, nVgt := 65535, n_dac := 1,
    voice_DC_voltage := 0, Vth := 0, nKp := 0, vmin := 0, N16 := 0 }

/-- States at entry to the second, third, ... call when `solve` is applied
to a sequence of inputs: the head is the state after the first call. -/
def Integrator.solveTrace (σ : Integrator) : List ℤ → List Integrator
  | [] => []
  | vi :: r => ((σ.solve vi).1) :: ((σ.solve vi).1.solveTrace r)

/-- A concrete integrator whose `nKp` makes `setFc` hit the value `-0.5`
exactly, at `wl = -(1 / 16384)`. -/
def intgHalf : Integrator :=
  { opamp_rev := fun _ => 0, vx := 0, vc := 0, nVgt := 0, n_dac := 0,
    voice_DC_voltage := 0, Vth := 0, nKp := 1, vmin := 0, N16 := 0 }

/-- A concrete integrator inside the overflow-free operating envelope,
used as a witness state. -/
def intgSmall : Integrator :=
  { opamp_rev := fun _ => 0, vx := 100, vc := 0, nVgt := 1000, n_dac := 3,
    voice_DC_voltage := 4, Vth := 1, nKp := 1, vmin := 0, N16 := 10 }

/-- Modelled from the spec: the ring-buffer span constant of the
resampler, declared in the `SincResampler.h` header (not among the
sources): a power of two large enough to hold the filter span twice over.
The sample array holds `RINGSIZE * 2` entries. -/
def RINGSIZE : ℤ := 2048

/-- State of one `SincResampler` instance. The raw sample array is
modelled as a total function on `ℤ` (only indexes in `[0, 2 * RINGSIZE)`
are ever read); `firTable` is the cached coefficient matrix, a row per
phase and a column per tap. -/
structure SincResampler where
  sample : ℤ → ℝ
  sampleIndex : ℤ
  cyclesPerSample : ℤ
  sampleOffset : ℤ
  outputValue : ℝ
  firRES : ℤ
  firN : ℤ
  firTable : ℤ → ℤ → ℝ

/-- The `convolve` helper of `SincResampler.cpp`: dot product of `n`
consecutive raw samples starting at `s` with the first `n` taps of a
coefficient row. -/
def convolve (a : ℤ → ℝ) (s : ℤ) (b : ℤ → ℝ) (n : ℤ) : ℝ :=
  ∑ j ∈ Finset.range n.toNat, a (s + (j : ℤ)) * b (j : ℤ)

/-- `SincResampler::fir(subcycle)`: select the phase row below the
requested sub-sample offset, convolve, do the same for the next row
(wrapping to row 0 and advancing the window when the selected row was the
last), and linearly interpolate by the fractional phase residual. -/
noncomputable def SincResampler.fir (σ : SincResampler) (subcycle : ℤ) : ℝ :=
  let firTableFirst : ℤ := asr (subcycle * σ.firRES) 10
  let firTableOffset : ℤ := (subcycle * σ.firRES) % 1024
  let sampleStart : ℤ := σ.sampleIndex - σ.firN + RINGSIZE - 1
  let v1 : ℝ := convolve σ.sample sampleStart (σ.firTable firTableFirst) σ.firN
  let next : ℤ × ℤ :=
    if firTableFirst + 1 = σ.firRES then (0, sampleStart + 1)
    else (firTableFirst + 1, sampleStart)
  let v2 : ℝ := convolve σ.sample next.2 (σ.firTable next.1) σ.firN
  v1 + (firTableOffset : ℝ) * (v2 - v1) / 1024

/-- First half of `SincResampler::input`: write the incoming sample at
both `sampleIndex` and `sampleIndex + RINGSIZE`, then advance the write
cursor modulo the ring size. -/
def SincResampler.writeSample (σ : SincResampler) (x : ℝ) : SincResampler :=
  { σ with
    sample := fun i =>
      if i = σ.sampleIndex ∨ i = σ.sampleIndex + RINGSIZE then x else σ.sample i,
    sampleIndex := (σ.sampleIndex + 1) % RINGSIZE }

/-- `SincResampler::input(input)`: after the ring-buffer write, produce an
output via `fir` when the phase accumulator is below one output period
(1024), advancing it by `cyclesPerSample`; subtract 1024 on every call.
Returns the new state and the `ready` flag. -/
noncomputable def SincResampler.input (σ : SincResampler) (x : ℝ) : SincResampler × Bool :=
  let σ₁ := σ.writeSample x
  let step : SincResampler × Bool :=
    if σ.sampleOffset < 1024 then
      ({ σ₁ with outputValue := σ₁.fir σ.sampleOffset,
                 sampleOffset := σ.sampleOffset + σ.cyclesPerSample }, true)
    else (σ₁, false)
  ({ step.1 with sampleOffset := step.1.sampleOffset - 1024 }, step.2)

/-- `SincResampler::reset()`: zero the whole sample ring buffer and the
phase accumulator, leaving `sampleIndex` (and everything else) alone. -/
def SincResampler.reset (σ : SincResampler) : SincResampler :=
  { σ with sample := fun _ => 0, sampleOffset := 0 }

/-- Feed a list of input samples, collecting after each call the pair of
the `ready` flag and the current `outputValue`. -/
noncomputable def SincResampler.run (σ : SincResampler) : List ℝ → List (Bool × ℝ)
  | [] => []
  | x :: r => ((σ.input x).2, (σ.input x).1.outputValue) :: (σ.input x).1.run r

/-- Dynamic state of a freshly constructed `SincResampler`: write cursor
and phase accumulator at zero, `outputValue` zero and (modelled from the
spec, the member array being declared in the missing header) an all-zero
sample buffer, with the given filter parameters. -/
def mkFresh (cps firN firRES : ℤ) (tbl : ℤ → ℤ → ℝ) : SincResampler :=
  { sample := fun _ => 0, sampleIndex := 0, cyclesPerSample := cps,
    sampleOffset := 0, outputValue := 0, firRES := firRES, firN := firN,
    firTable := tbl }

/-- The phase-accumulator step claimed by the specification for
`SincResampler::input`: produce an output exactly when the accumulator is
below 1024, advancing it by `cyclesPerSample` in that case, and subtract
1024 on every call. -/
def offsetStep (cps off : ℤ) : ℤ × Bool :=
  if off < 1024 then (off + cps - 1024, true) else (off - 1024, false)

/-- Maximum relative error accepted in `I0` (`const double I0E = 1e-6`). -/
noncomputable def I0E : ℝ := 1e-6

/-- Audio bit depth (`const int BITS = 16`). -/
def BITS : ℕ := 16

/-- The state `(sum, u, n)` of the series loop in `I0` after `k`
executions of the do-while body, starting from `(1, 1, 1)`; each body
computes `temp = halfx / n`, `u *= temp * temp`, `sum += u`, `n += 1`.
The first argument is `halfx = x / 2`. -/
noncomputable def I0go (halfx : ℝ) : ℕ → ℝ × ℝ × ℝ
  | 0 => (1, 1, 1)
  | k + 1 =>
    let p := I0go halfx k
    let temp := halfx / p.2.2
    let u := p.2.1 * (temp * temp)
    (p.1 + u, u, p.2.2 + 1)

/-- The do-while loop of `I0` exits after body execution `k` when the
current term has dropped below `I0E` times the running sum. -/
noncomputable def I0stop (x : ℝ) (k : ℕ) : Prop :=
  1 ≤ k ∧ (I0go (x / 2) k).2.1 < I0E * (I0go (x / 2) k).1

/-- The `I0` function of `SincResampler.cpp`: the zeroth-order modified
Bessel series, summed until the first body execution after which the term
falls below `I0E` times the sum (`sInf` picks that first execution; the
loop body runs at least once). -/
noncomputable def I0 (x : ℝ) : ℝ :=
  (I0go (x / 2) (sInf { k | I0stop x k })).1

/-- Target stopband attenuation of the constructor:
`A = -20 * log10(1.0 / (1 << BITS))`. -/
noncomputable def attenA : ℝ := -20 * Real.logb 10 (1 / (2 ^ BITS))

/-- Normalized transition bandwidth of the constructor:
`dw = (1 - 2 * highestAccurateFrequency / samplingFrequency) * pi * 2`. -/
noncomputable def dwOf (fs hf : ℝ) : ℝ := (1 - 2 * hf / fs) * Real.pi * 2

/-- Kaiser window shape parameter: `beta = 0.1102 * (A - 8.7)`. -/
noncomputable def betaK : ℝ := 0.1102 * (attenA - 8.7)

/-- The double ratio `cyclesPerSampleD = clockFrequency / samplingFrequency`. -/
noncomputable def cpsDOf (clockF fs : ℝ) : ℝ := clockF / fs

/-- The filter order `N` of the constructor:
`N = (int)((A - 7.95) / (2.285 * dw) + 0.5)` made even by `N += N & 1`
(on two's complement, `N & 1` is `N mod 2`). -/
noncomputable def NOf (fs hf : ℝ) : ℤ :=
  let N0 := truncI ((attenA - 7.95) / (2.285 * dwOf fs hf) + 0.5)
  N0 + N0 % 2

/-- The filter length of the constructor:
`firN = (int)(N * cyclesPerSampleD) + 1` made odd by `firN |= 1`
(on two's complement, `t | 1` is `t` when `t` is odd and `t + 1` when
even). -/
noncomputable def firNOf (clockF fs hf : ℝ) : ℤ :=
  let t := truncI ((NOf fs hf : ℝ) * cpsDOf clockF fs) + 1
  t + (1 - t % 2)

/-- The constructor-time assertion `assert(firN < RINGSIZE)`. -/
noncomputable def constructOK (clockF fs hf : ℝ) : Prop :=
  firNOf clockF fs hf < RINGSIZE

/-- The phase resolution of the constructor:
`firRES = (int)(ceil(sqrt(1.234 * (1 << BITS)) / cyclesPerSampleD))`
(the cast of the already-integral `ceil` result is the ceiling itself). -/
noncomputable def firRESOf (clockF fs : ℝ) : ℤ :=
  ⌈Real.sqrt (1.234 * (2 ^ BITS)) / cpsDOf clockF fs⌉

/-- One FIR coefficient table, built on a cache miss: entry `(i, j)` is
`scale * sincWt * kaiserXt` exactly as in the constructor's double loop
(`firN / 2` is C integer division). -/
noncomputable def computeFirTable (firN firRES : ℤ) (cpsD : ℝ) : ℤ → ℤ → ℝ :=
  fun i j =>
    let jPhase : ℝ := (i : ℝ) / (firRES : ℝ) + ((tdivI firN 2 : ℤ) : ℝ)
    let x : ℝ := (j : ℝ) - jPhase
    let xt : ℝ := x / ((tdivI firN 2 : ℤ) : ℝ)
    let kaiserXt : ℝ := if |xt| < 1 then I0 (betaK * Real.sqrt (1 - xt * xt)) / I0 betaK else 0
    let wt : ℝ := Real.pi * x / cpsD
    let sincWt : ℝ := if 1e-8 ≤ |wt| then Real.sin wt / wt else 1
    (Real.pi / cpsD / Real.pi) * sincWt * kaiserXt

/-- The process-wide `FIR_CACHE`, modelled as an association list. The
source keys the map by the decimal string `firN << "," << firRES << ","
<< cyclesPerSampleD`; the key is modelled by the triple itself, which
agrees with the string key whenever the triples are equal (the case the
claims exercise). -/
def FirCache : Type := List ((ℤ × ℤ × ℝ) × (ℤ → ℤ → ℝ))

open Classical in
/-- Lookup of a key in the FIR cache (`FIR_CACHE.lower_bound` followed by
the key-equality test). -/
noncomputable def cacheLookup : FirCache → ℤ × ℤ × ℝ → Option (ℤ → ℤ → ℝ)
  | [], _ => none
  | e :: r, k => if e.1 = k then some e.2 else cacheLookup r k

/-- The `SincResampler` constructor: compute `cyclesPerSample`, `firN` and
`firRES` from the frequency triple, then either bind `firTable` to the
cached matrix for the key `(firN, firRES, cyclesPerSampleD)` or build the
matrix, insert it, and bind to it. Returns the new instance and the
updated cache. -/
noncomputable def construct (clockF fs hf : ℝ) (c : FirCache) :
    SincResampler × FirCache :=
  let cps := truncI (clockF / fs * 1024)
  let cpsD := cpsDOf clockF fs
  let firN := firNOf clockF fs hf
  let firRES := firRESOf clockF fs
  match cacheLookup c (firN, firRES, cpsD) with
  | some t => (mkFresh cps firN firRES t, c)
  | none =>
    let t := computeFirTable firN firRES cpsD
    (mkFresh cps firN firRES t, ((firN, firRES, cpsD), t) :: c)

/-- Duplication invariant of the dual-write sample buffer: every ring
position `i` holds the same value at raw index `i` and `i + RINGSIZE`, so
a convolution window may read raw indexes in `[0, 2 * RINGSIZE)` without
wrapping. -/
def dup (σ : SincResampler) : Prop :=
  ∀ i : ℤ, 0 ≤ i → i < RINGSIZE → σ.sample (i + RINGSIZE) = σ.sample i

/-- Simulation relation between a resampler whose write cursor sits `k`
ring positions ahead (left) and one whose cursor was never rotated
(right): identical filter parameters and phase, valid cursors and filter
length, duplicated buffers, and ring contents equal up to rotation by
`k`. -/
def SimRel (k : ℤ) (σ₁ σ₂ : SincResampler) : Prop :=
  σ₁.cyclesPerSample = σ₂.cyclesPerSample ∧
  σ₁.firN = σ₂.firN ∧ σ₁.firRES = σ₂.firRES ∧ σ₁.firTable = σ₂.firTable ∧
  σ₁.sampleOffset = σ₂.sampleOffset ∧
  0 ≤ σ₂.sampleIndex ∧ σ₂.sampleIndex < RINGSIZE ∧
  σ₁.sampleIndex = (σ₂.sampleIndex + k) % RINGSIZE ∧
  1 ≤ σ₂.firN ∧ σ₂.firN < RINGSIZE ∧
  dup σ₁ ∧ dup σ₂ ∧
  ∀ i : ℤ, σ₁.sample ((i + k) % RINGSIZE) = σ₂.sample (i % RINGSIZE)

/-- A concrete warm resampler state (rotated cursor, stale buffer and
output) used as a witness. -/
noncomputable def rsmpWarm : SincResampler :=
  { sample := fun i => if i = 0 then 4 else 0, sampleIndex := 5,
    cyclesPerSample := 2000, sampleOffset := 7, outputValue := 9,
    firRES := 2, firN := 3, firTable := fun _ _ => 0 }

theorem toUInt32_eq_self {x : ℤ} (h1 : 0 ≤ x) (h2 : x < 2 ^ 32) :
    toUInt32 x = x := Int.emod_eq_of_lt h1 h2

theorem toInt32_eq_self {x : ℤ} (h1 : -2 ^ 31 ≤ x) (h2 : x < 2 ^ 31) :
    toInt32 x = x := by
  unfold toInt32
  omega

/-- C1 (counterexample): at the state `intgWide` (which satisfies the
claim's precondition `vx < nVgt`) and input `vi = 65535`, the value
returned by `Integrator8580::solve` differs from the value demanded by
the claim's exact-arithmetic description: the 32-bit square `Vgst * Vgst`
wraps, so the code returns `1` where the formula gives `-7`. -/
theorem solve_formula_counterexample :
    intgWide.solvePre ∧ (intgWide.solve 65535).2 ≠ (intgWide.solveSpec 65535).2 := by
  constructor
  · unfold Integrator.solvePre
    decide
  · decide

/-- C1 (amended): provided additionally that the voltage differences stay
small enough that no 32-bit overflow occurs (`nVgt - vx ≤ 46340`, and
`nVgt - vi ≤ 46340` whenever `vi < nVgt`), `Integrator8580::solve`
computes exactly the claimed step: `Vgst = nVgt - vx`,
`Vgdt = max 0 (nVgt - vi)`, `vc += n_dac * ((Vgst² - Vgdt²) >> 15)`,
`vx = opamp_rev[(vc >> 15) + 2^15]`, returning `vx - (vc >> 14)`. -/
theorem solve_eq_spec (σ : Integrator) (vi : ℤ)
    (hpre : σ.solvePre) (hg : σ.nVgt - σ.vx ≤ 46340)
    (hd : vi < σ.nVgt → σ.nVgt - vi ≤ 46340) :
    σ.solve vi = σ.solveSpec vi := by
  have hpre' : σ.vx < σ.nVgt := hpre
  have hVgst : toUInt32 (σ.nVgt - σ.vx) = σ.nVgt - σ.vx :=
    toUInt32_eq_self (by omega) (by omega)
  have hVg2 : (σ.nVgt - σ.vx) * (σ.nVgt - σ.vx) < 2 ^ 31 := by nlinarith
  have hVg2nn : 0 ≤ (σ.nVgt - σ.vx) * (σ.nVgt - σ.vx) := by nlinarith
  have hVgst2 : toUInt32 ((σ.nVgt - σ.vx) * (σ.nVgt - σ.vx))
      = (σ.nVgt - σ.vx) * (σ.nVgt - σ.vx) :=
    toUInt32_eq_self hVg2nn (by omega)
  by_cases hvi : vi < σ.nVgt
  · have hdle : σ.nVgt - vi ≤ 46340 := hd hvi
    have hVgdt : toUInt32 (σ.nVgt - vi) = σ.nVgt - vi :=
      toUInt32_eq_self (by omega) (by omega)
    have hDg2 : (σ.nVgt - vi) * (σ.nVgt - vi) < 2 ^ 31 := by nlinarith
    have hDg2nn : 0 ≤ (σ.nVgt - vi) * (σ.nVgt - vi) := by nlinarith
    have hVgdt2 : toUInt32 ((σ.nVgt - vi) * (σ.nVgt - vi))
        = (σ.nVgt - vi) * (σ.nVgt - vi) :=
      toUInt32_eq_self hDg2nn (by omega)
    have hmax : max 0 (σ.nVgt - vi) = σ.nVgt - vi := by omega
    simp only [Integrator.solve, Integrator.solveSpec, if_pos hvi, hVgst,
      hVgdt, hVgst2, hVgdt2, hmax]
    rw [toInt32_eq_self (by omega) (by omega)]
  · have hmax : max 0 (σ.nVgt - vi) = 0 := by omega
    have hz : toUInt32 0 = 0 := rfl
    simp only [Integrator.solve, Integrator.solveSpec, if_neg hvi, hVgst,
      hVgst2, hmax, mul_zero, zero_mul, hz, sub_zero]
    rw [toInt32_eq_self (by omega) (by omega)]

/-- C1 (witness): the amended theorem applies at the concrete in-envelope
state `intgSmall` with input `vi = 500`. -/
theorem solve_eq_spec_witness :
    intgSmall.solvePre ∧ intgSmall.nVgt - intgSmall.vx ≤ 46340 ∧
      (500 < intgSmall.nVgt → intgSmall.nVgt - 500 ≤ 46340) ∧
      intgSmall.solve 500 = intgSmall.solveSpec 500 :=
  ⟨by unfold Integrator.solvePre; decide, by decide, by decide,
    solve_eq_spec intgSmall 500 (by unfold Integrator.solvePre; decide)
      (by decide) (by decide)⟩

/-- C5 (counterexample): at the state `intgHalf` (where `nKp = 1`) and
argument `wl = -(1 / 16384)`, the value computed inside `setFc` is exactly
`-0.5`, which lies in the claimed accepted interval `[-0.5, 65535.5)`, yet
the assertion `tmp > -0.5` of `Integrator8580::setFc` fails. -/
theorem setFc_boundary_counterexample :
    (-0.5 ≤ intgHalf.setFcVal (-(1 / 16384)) ∧
      intgHalf.setFcVal (-(1 / 16384)) < 65535.5) ∧
      ¬ intgHalf.setFcOK (-(1 / 16384)) := by
  have hv : intgHalf.setFcVal (-(1 / 16384)) = -0.5 := by
    unfold Integrator.setFcVal intgHalf
    norm_num
  refine ⟨⟨le_of_eq hv.symm, ?_⟩, ?_⟩
  · rw [hv]; norm_num
  · intro h
    rw [Integrator.setFcOK, hv] at h
    exact absurd h.1 (by norm_num)

/-- C5 (amended): `Integrator8580::setFc` succeeds exactly when its
computed fixed-point value lies in the open interval `(-0.5, 65535.5)`
(the endpoint `-0.5` is rejected by the strict assertion `tmp > -0.5`),
and `Integrator8580::setV` succeeds exactly when additionally its argument
satisfies `1 < v < 2` and its computed value lies in the same open
interval. -/
theorem setters_assert_iff (σ : Integrator) (wl v : ℝ) :
    (σ.setFcOK wl ↔ (-0.5 < σ.setFcVal wl ∧ σ.setFcVal wl < 65535.5)) ∧
      (σ.setVOK v ↔
        (1 < v ∧ v < 2 ∧ -0.5 < σ.setVVal v ∧ σ.setVVal v < 65535.5)) :=
  ⟨Iff.rfl, Iff.rfl⟩

/-- A `solve` step never changes `nVgt` or the table, and writes a table
entry into `vx`. -/
theorem solve_step_shape (σ : Integrator) (vi : ℤ) :
    (σ.solve vi).1.nVgt = σ.nVgt ∧ (σ.solve vi).1.opamp_rev = σ.opamp_rev ∧
      ∃ t, (σ.solve vi).1.vx = σ.opamp_rev t := by
  refine ⟨rfl, rfl, ⟨asr ((σ.solve vi).1.vc) 15 + 2 ^ 15, rfl⟩⟩

/-- C9: if every entry of the shared `opamp_rev` table is strictly below
`nVgt` and the integrator starts above subthreshold (`vx < nVgt`), then
along any sequence of inputs every state reached after a call to
`Integrator8580::solve` still satisfies the entry assertion `vx < nVgt`:
the assertion can never fail on any call after the first. -/
theorem solve_preserves_subthreshold (σ : Integrator)
    (htab : ∀ t, σ.opamp_rev t < σ.nVgt) (h0 : σ.solvePre) :
    ∀ vis : List ℤ, ∀ σ' ∈ σ.solveTrace vis, σ'.solvePre := by
  intro vis
  induction vis generalizing σ with
  | nil => intro σ' h; exact absurd h (List.not_mem_nil σ')
  | cons vi r ih =>
    intro σ' hmem
    rcases List.mem_cons.mp hmem with h | h
    · subst h
      show (σ.solve vi).1.vx < (σ.solve vi).1.nVgt
      obtain ⟨hn, _, ⟨t, ht⟩⟩ := solve_step_shape σ vi
      rw [hn, ht]
      exact htab t
    · have hn : (σ.solve vi).1.nVgt = σ.nVgt := rfl
      have hr : (σ.solve vi).1.opamp_rev = σ.opamp_rev := rfl
      refine ih ((σ.solve vi).1) ?_ ?_ σ' h
      · intro t; rw [hn, hr]; exact htab t
      · show (σ.solve vi).1.vx < (σ.solve vi).1.nVgt
        obtain ⟨hn', _, ⟨t, ht⟩⟩ := solve_step_shape σ vi
        rw [hn', ht]
        exact htab t

/-- C9 (witness): the invariant theorem applies to the concrete state
`intgSmall` (constant-zero table, `nVgt = 1000`) and the input
sequence `[0, 1, 2]`. -/
theorem solve_preserves_subthreshold_witness :
    (∀ t, intgSmall.opamp_rev t < intgSmall.nVgt) ∧ intgSmall.solvePre ∧
      ∀ σ' ∈ intgSmall.solveTrace [0, 1, 2], σ'.solvePre :=
  ⟨fun _ => show (0 : ℤ) < 1000 by decide, by unfold Integrator.solvePre; decide,
    solve_preserves_subthreshold intgSmall (fun _ => show (0 : ℤ) < 1000 by decide)
      (by unfold Integrator.solvePre; decide) [0, 1, 2]⟩

/-- C10: on arguments in their accepted domains, `Integrator8580::setFc`
changes only `n_dac`, and `Integrator8580::setV` changes only `nVgt`:
neither touches `vx`, `vc`, the other setter's field, the table reference,
or any of the immutable per-instance constants. -/
theorem setters_frame (σ : Integrator) (wl v : ℝ)
    (_hfc : σ.setFcOK wl) (_hv : σ.setVOK v) :
    ((σ.setFc wl).opamp_rev = σ.opamp_rev ∧ (σ.setFc wl).vx = σ.vx ∧
      (σ.setFc wl).vc = σ.vc ∧ (σ.setFc wl).nVgt = σ.nVgt ∧
      (σ.setFc wl).voice_DC_voltage = σ.voice_DC_voltage ∧
      (σ.setFc wl).Vth = σ.Vth ∧ (σ.setFc wl).nKp = σ.nKp ∧
      (σ.setFc wl).vmin = σ.vmin ∧ (σ.setFc wl).N16 = σ.N16) ∧
    ((σ.setV v).opamp_rev = σ.opamp_rev ∧ (σ.setV v).vx = σ.vx ∧
      (σ.setV v).vc = σ.vc ∧ (σ.setV v).n_dac = σ.n_dac ∧
      (σ.setV v).voice_DC_voltage = σ.voice_DC_voltage ∧
      (σ.setV v).Vth = σ.Vth ∧ (σ.setV v).nKp = σ.nKp ∧
      (σ.setV v).vmin = σ.vmin ∧ (σ.setV v).N16 = σ.N16) :=
  ⟨⟨rfl, rfl, rfl, rfl, rfl, rfl, rfl, rfl, rfl⟩,
    ⟨rfl, rfl, rfl, rfl, rfl, rfl, rfl, rfl, rfl⟩⟩

/-- C10 (witness): the frame theorem applies to `intgSmall` with
`wl = 1` (giving `setFc` value `8192`) and `v = 1.5` (giving `setV`
value `50`), both inside the asserted domains. -/
theorem setters_frame_witness :
    intgSmall.setFcOK 1 ∧ intgSmall.setVOK 1.5 ∧
      (intgSmall.setFc 1).vx = intgSmall.vx ∧
      (intgSmall.setV 1.5).n_dac = intgSmall.n_dac := by
  have hfc : intgSmall.setFcOK 1 := by
    unfold Integrator.setFcOK Integrator.setFcVal intgSmall
    norm_num
  have hv : intgSmall.setVOK 1.5 := by
    unfold Integrator.setVOK Integrator.setVVal intgSmall
    norm_num
  refine ⟨hfc, hv, ?_, ?_⟩
  · exact (setters_frame intgSmall 1 1.5 hfc hv).1.2.1
  · exact (setters_frame intgSmall 1 1.5 hfc hv).2.2.2.2.1

/-- C2: `SincResampler::input` signals `ready` (and computes an output
sample via `fir` on the freshly written buffer) exactly when the phase
accumulator is below 1024 at entry; the accumulator advances by
`cyclesPerSample` when an output is produced and 1024 is subtracted on
every call, exactly the claimed accumulator step. -/
theorem input_phase_step (σ : SincResampler) (x : ℝ) :
    ((σ.input x).2 = true ↔ σ.sampleOffset < 1024) ∧
      (σ.input x).1.sampleOffset =
        (offsetStep σ.cyclesPerSample σ.sampleOffset).1 ∧
      (σ.input x).2 = (offsetStep σ.cyclesPerSample σ.sampleOffset).2 ∧
      ((σ.input x).2 = true →
        (σ.input x).1.outputValue = (σ.writeSample x).fir σ.sampleOffset) := by
  unfold SincResampler.input offsetStep
  by_cases h : σ.sampleOffset < 1024 <;>
    simp [h, SincResampler.writeSample]

/-- C6: the filter order `N` is forced even, the filter length `firN`
computed by the `SincResampler` constructor is always odd, and
construction passes its assertion exactly when `firN` is below the
ring-buffer span `RINGSIZE`. -/
theorem firN_odd_and_ring_assert (clockF fs hf : ℝ) :
    Even (NOf fs hf) ∧ Odd (firNOf clockF fs hf) ∧
      (constructOK clockF fs hf ↔ firNOf clockF fs hf < RINGSIZE) := by
  refine ⟨?_, ?_, Iff.rfl⟩
  · rw [Int.even_iff]
    simp only [NOf]
    generalize truncI ((attenA - 7.95) / (2.285 * dwOf fs hf) + 0.5) = t
    omega
  · rw [Int.odd_iff]
    simp only [firNOf]
    generalize truncI ((NOf fs hf : ℝ) * cpsDOf clockF fs) = t
    omega

theorem I0go_closed (h : ℝ) (k : ℕ) :
    (I0go h k).2.2 = (k : ℝ) + 1 ∧
      (I0go h k).2.1 = (h ^ k / (Nat.factorial k : ℝ)) ^ 2 := by
  induction k with
  | zero => simp [I0go]
  | succ k ih =>
    obtain ⟨hn, hu⟩ := ih
    constructor
    · show (I0go h k).2.2 + 1 = ((k + 1 : ℕ) : ℝ) + 1
      rw [hn]
      push_cast
      ring
    · show (I0go h k).2.1 * ((h / (I0go h k).2.2) * (h / (I0go h k).2.2))
        = (h ^ (k + 1) / (Nat.factorial (k + 1) : ℝ)) ^ 2
      rw [hn, hu, Nat.factorial_succ]
      have hk1 : ((k : ℝ) + 1) ≠ 0 := by positivity
      have hfk : (Nat.factorial k : ℝ) ≠ 0 := by
        exact_mod_cast Nat.factorial_ne_zero k
      field_simp
      ring

theorem I0go_sum_ge_one (h : ℝ) (k : ℕ) : 1 ≤ (I0go h k).1 := by
  induction k with
  | zero => simp [I0go]
  | succ k ih =>
    show 1 ≤ (I0go h k).1 + (I0go h k).2.1 * ((h / (I0go h k).2.2) * (h / (I0go h k).2.2))
    have hu : 0 ≤ (I0go h k).2.1 := by
      rw [(I0go_closed h k).2]
      positivity
    nlinarith [sq_nonneg (h / (I0go h k).2.2)]

/-- C8: for every `x ≥ 0` the series loop of `I0` terminates (some body
execution makes the term drop below `1e-6` times the running sum), and at
`x = 0` the loop exits right after its first, mandatory iteration with
`I0 0 = 1`. -/
theorem I0_terminates (x : ℝ) (_hx : 0 ≤ x) :
    (∃ k, I0stop x k) ∧ I0stop 0 1 ∧ I0 0 = 1 := by
  have hz : (0 : ℝ) / 2 = 0 := by norm_num
  have h1 : (I0go (0 : ℝ) 1).2.1 = 0 := by
    show (1 : ℝ) * ((0 / 1) * (0 / 1)) = 0
    norm_num
  have h2 : (I0go (0 : ℝ) 1).1 = 1 := by
    show (1 : ℝ) + 1 * ((0 / 1) * (0 / 1)) = 1
    norm_num
  have base : I0stop 0 1 := by
    refine ⟨le_refl 1, ?_⟩
    rw [hz, h1, h2, I0E]
    norm_num
  refine ⟨?_, base, ?_⟩
  · have ht := FloorSemiring.tendsto_pow_div_factorial_atTop (K := ℝ) (x / 2)
    rw [Metric.tendsto_atTop] at ht
    obtain ⟨N, hN⟩ := ht 0.001 (by norm_num)
    refine ⟨max N 1, le_max_right N 1, ?_⟩
    have hd := hN (max N 1) (le_max_left N 1)
    rw [Real.dist_eq, sub_zero] at hd
    have hu : (I0go (x / 2) (max N 1)).2.1
        = ((x / 2) ^ (max N 1) / (Nat.factorial (max N 1) : ℝ)) ^ 2 :=
      (I0go_closed (x / 2) (max N 1)).2
    have hsum := I0go_sum_ge_one (x / 2) (max N 1)
    have hsq : ((x / 2) ^ (max N 1) / (Nat.factorial (max N 1) : ℝ)) ^ 2 < 1e-6 := by
      have : |(x / 2) ^ (max N 1) / (Nat.factorial (max N 1) : ℝ)| < 0.001 := hd
      nlinarith [abs_nonneg ((x / 2) ^ (max N 1) / (Nat.factorial (max N 1) : ℝ)),
        sq_abs ((x / 2) ^ (max N 1) / (Nat.factorial (max N 1) : ℝ))]
    rw [hu]
    have hIE : I0E = 1e-6 := rfl
    calc ((x / 2) ^ (max N 1) / (Nat.factorial (max N 1) : ℝ)) ^ 2
        < 1e-6 := hsq
      _ ≤ 1e-6 * (I0go (x / 2) (max N 1)).1 := by nlinarith
      _ = I0E * (I0go (x / 2) (max N 1)).1 := by rw [hIE]
  · have hmem : 1 ∈ { k | I0stop 0 k } := base
    have hle : sInf { k | I0stop 0 k } ≤ 1 := Nat.sInf_le hmem
    have hne : 0 ∉ { k | I0stop 0 k } := by
      intro h0
      exact absurd h0.1 (by norm_num)
    have hge : 1 ≤ sInf { k | I0stop 0 k } := by
      rcases Nat.eq_zero_or_pos (sInf { k | I0stop 0 k }) with h | h
      · exfalso
        have : sInf { k | I0stop 0 k } ∈ { k | I0stop 0 k } :=
          Nat.sInf_mem ⟨1, hmem⟩
        rw [h] at this
        exact hne this
      · exact h
    have hinf : sInf { k | I0stop 0 k } = 1 := le_antisymm hle hge
    unfold I0
    rw [hinf, hz, h2]

/-- C8 (witness): the termination theorem applies at the concrete
argument `x = 2`. -/
theorem I0_terminates_witness :
    (0 : ℝ) ≤ 2 ∧ ((∃ k, I0stop 2 k) ∧ I0stop 0 1 ∧ I0 0 = 1) :=
  ⟨zero_le_two, I0_terminates 2 zero_le_two⟩

/-- C4: the FIR table is a pure function of the constructor arguments and
the cache is keyed by `(firN, firRES, cyclesPerSampleD)`: constructing a
second `SincResampler` with the same frequency triple binds `firTable` to
exactly the table of the first construction and leaves the cache
untouched. -/
theorem fir_cache_pure (clockF fs hf : ℝ) (c : FirCache) :
    (construct clockF fs hf ((construct clockF fs hf c).2)).1.firTable
        = (construct clockF fs hf c).1.firTable ∧
      (construct clockF fs hf ((construct clockF fs hf c).2)).2
        = (construct clockF fs hf c).2 := by
  unfold construct
  cases h : cacheLookup c
      (firNOf clockF fs hf, firRESOf clockF fs, cpsDOf clockF fs) with
  | some t => simp [h, mkFresh]
  | none => simp [h, mkFresh, cacheLookup]

theorem input_fields (σ : SincResampler) (x : ℝ) :
    (σ.input x).1.cyclesPerSample = σ.cyclesPerSample ∧
      (σ.input x).1.firN = σ.firN ∧ (σ.input x).1.firRES = σ.firRES ∧
      (σ.input x).1.firTable = σ.firTable ∧
      (σ.input x).1.sample = (σ.writeSample x).sample ∧
      (σ.input x).1.sampleIndex = (σ.writeSample x).sampleIndex ∧
      (σ.input x).1.outputValue =
        (if σ.sampleOffset < 1024 then (σ.writeSample x).fir σ.sampleOffset
          else σ.outputValue) := by
  unfold SincResampler.input
  by_cases h : σ.sampleOffset < 1024 <;>
    simp [h, SincResampler.writeSample]

theorem fir_of_zero_buffer (σ : SincResampler)
    (hs : σ.sample = fun _ => 0) (t : ℤ) : σ.fir t = 0 := by
  unfold SincResampler.fir convolve
  rw [hs]
  simp

theorem writeSample_zero_buffer (σ : SincResampler)
    (hs : σ.sample = fun _ => 0) : (σ.writeSample 0).sample = fun _ => 0 := by
  unfold SincResampler.writeSample
  rw [hs]
  funext i
  simp

theorem run_zero (n : ℕ) : ∀ σ : SincResampler,
    σ.sample = (fun _ => 0) → σ.outputValue = 0 → σ.cyclesPerSample = 23219 →
    0 ≤ σ.sampleOffset → σ.sampleOffset < 23219 →
    (∀ p ∈ σ.run (List.replicate n (0 : ℝ)), p.2 = 0) ∧
      ∃ o', 0 ≤ o' ∧ o' < 23219 ∧
        23219 * (((σ.run (List.replicate n (0 : ℝ))).countP (fun p => p.1)) : ℤ)
          = o' - σ.sampleOffset + 1024 * n := by
  induction n with
  | zero =>
    intro σ hs ho hc hlo hhi
    refine ⟨?_, σ.sampleOffset, hlo, hhi, ?_⟩
    · intro p hp
      simp [SincResampler.run] at hp
    · simp [SincResampler.run]
  | succ n ih =>
    intro σ hs ho hc hlo hhi
    have hps := input_phase_step σ 0
    have hif := input_fields σ 0
    have hs' : (σ.input 0).1.sample = fun _ => 0 := by
      rw [hif.2.2.2.2.1]
      exact writeSample_zero_buffer σ hs
    have hc' : (σ.input 0).1.cyclesPerSample = 23219 := by
      rw [hif.1, hc]
    have hfirz : (σ.writeSample (0 : ℝ)).fir σ.sampleOffset = 0 :=
      fir_of_zero_buffer _ (writeSample_zero_buffer σ hs) _
    have ho' : (σ.input 0).1.outputValue = 0 := by
      rw [hif.2.2.2.2.2.2]
      by_cases hoff : σ.sampleOffset < 1024
      · rw [if_pos hoff, hfirz]
      · rw [if_neg hoff, ho]
    have hoffeq : (σ.input 0).1.sampleOffset =
        (offsetStep σ.cyclesPerSample σ.sampleOffset).1 := hps.2.1
    have hrun : σ.run (List.replicate (n + 1) (0 : ℝ)) =
        ((σ.input 0).2, (σ.input 0).1.outputValue) ::
          (σ.input 0).1.run (List.replicate n (0 : ℝ)) := by
      rw [List.replicate_succ]
      rfl
    by_cases hoff : σ.sampleOffset < 1024
    · have hoff' : (σ.input 0).1.sampleOffset =
          σ.sampleOffset + 23219 - 1024 := by
        rw [hoffeq]
        unfold offsetStep
        rw [if_pos hoff, hc]
      obtain ⟨htail, o', h1, h2, h3⟩ := ih ((σ.input 0).1) hs' ho' hc'
        (by omega) (by omega)
      have hflag : (σ.input 0).2 = true := hps.1.mpr hoff
      refine ⟨?_, o', h1, h2, ?_⟩
      · intro p hp
        rw [hrun] at hp
        rcases List.mem_cons.mp hp with h | h
        · rw [h]
          exact ho'
        · exact htail p h
      · rw [hrun, List.countP_cons]
        simp only [hflag]
        push_cast
        omega
    · have hoff' : (σ.input 0).1.sampleOffset = σ.sampleOffset - 1024 := by
        rw [hoffeq]
        unfold offsetStep
        rw [if_neg hoff]
      obtain ⟨htail, o', h1, h2, h3⟩ := ih ((σ.input 0).1) hs' ho' hc'
        (by omega) (by omega)
      have hflag : (σ.input 0).2 = false := by
        rw [hps.2.2.1]
        unfold offsetStep
        rw [if_neg hoff]
      refine ⟨?_, o', h1, h2, ?_⟩
      · intro p hp
        rw [hrun] at hp
        rcases List.mem_cons.mp hp with h | h
        · rw [h]
          exact ho'
        · exact htail p h
      · rw [hrun, List.countP_cons]
        simp only [hflag]
        push_cast
        omega

theorem construct_state_fields (clockF fs hf : ℝ) (c : FirCache) :
    (construct clockF fs hf c).1.sample = (fun _ => 0) ∧
      (construct clockF fs hf c).1.sampleOffset = 0 ∧
      (construct clockF fs hf c).1.outputValue = 0 ∧
      (construct clockF fs hf c).1.cyclesPerSample = truncI (clockF / fs * 1024) := by
  unfold construct
  cases h : cacheLookup c
      (firNOf clockF fs hf, firRESOf clockF fs, cpsDOf clockF fs) <;>
    simp [h, mkFresh]

theorem cps_concrete : truncI ((1000000 : ℝ) / 44100 * 1024) = 23219 := by
  unfold truncI
  rw [if_pos (by positivity), Int.floor_eq_iff]
  constructor <;> norm_num

/-- C7: a `SincResampler` constructed for 1 MHz clock, 44100 Hz sampling
and 20 kHz accurate bandwidth gets `cyclesPerSample = 23219`; fed any
number of zero samples, every reported output value is exactly `0`, and
the number of `ready` signals among `n` calls is exactly
`⌈1024 * n / 23219⌉` — one output per `cyclesPerSample / 1024` input
calls. -/
theorem zero_stream_scenario (c : FirCache) (n : ℕ) :
    (construct 1000000 44100 20000 c).1.cyclesPerSample = 23219 ∧
      (∀ p ∈ (construct 1000000 44100 20000 c).1.run
        (List.replicate n (0 : ℝ)), p.2 = 0) ∧
      (((construct 1000000 44100 20000 c).1.run
          (List.replicate n (0 : ℝ))).countP (fun p => p.1) : ℤ)
        = (1024 * (n : ℤ) + 23218) / 23219 := by
  obtain ⟨hsample, hoff, hout, hcps⟩ :=
    construct_state_fields 1000000 44100 20000 c
  have hc23219 : (construct 1000000 44100 20000 c).1.cyclesPerSample = 23219 := by
    rw [hcps, cps_concrete]
  obtain ⟨hall, o', ho1, ho2, hcount⟩ :=
    run_zero n _ hsample hout hc23219 (by simp [hoff]) (by simp [hoff])
  refine ⟨hc23219, hall, ?_⟩
  rw [hoff] at hcount
  omega

theorem sample_reduce (σ : SincResampler) (hd : dup σ) (p : ℤ)
    (h1 : 0 ≤ p) (h2 : p < 2 * RINGSIZE) :
    σ.sample p = σ.sample (p % RINGSIZE) := by
  by_cases h : p < RINGSIZE
  · rw [Int.emod_eq_of_lt h1 h]
  · have e : p % RINGSIZE = p - RINGSIZE := by
      simp only [RINGSIZE] at *
      omega
    rw [e]
    have hdp := hd (p - RINGSIZE) (by simp only [RINGSIZE] at *; omega)
      (by simp only [RINGSIZE] at *; omega)
    rw [Int.sub_add_cancel] at hdp
    exact hdp

theorem convolve_congr (a₁ a₂ b : ℤ → ℝ) (s₁ s₂ n : ℤ)
    (h : ∀ j : ℤ, 0 ≤ j → j < n → a₁ (s₁ + j) = a₂ (s₂ + j)) :
    convolve a₁ s₁ b n = convolve a₂ s₂ b n := by
  unfold convolve
  refine Finset.sum_congr rfl ?_
  intro j hj
  rw [Finset.mem_range] at hj
  rw [h (j : ℤ) (Int.natCast_nonneg j) (by omega)]

theorem fir_rel (k : ℤ) (σ₁ σ₂ : SincResampler) (hrel : SimRel k σ₁ σ₂)
    (t : ℤ) : σ₁.fir t = σ₂.fir t := by
  unfold SimRel at hrel
  obtain ⟨hcps, hfn, hfr, hft, hoff, hi0, hi1, hik, hn1, hn2, hd1, hd2,
    hshift⟩ := hrel
  have hidx1a : 0 ≤ σ₁.sampleIndex := by
    rw [hik]
    exact Int.emod_nonneg _ (by simp [RINGSIZE])
  have hidx1b : σ₁.sampleIndex < RINGSIZE := by
    rw [hik]
    exact Int.emod_lt_of_pos _ (by simp [RINGSIZE])
  have key : ∀ δ : ℤ, 0 ≤ δ → δ ≤ 1 → ∀ j : ℤ, 0 ≤ j → j < σ₂.firN →
      σ₁.sample (σ₁.sampleIndex - σ₂.firN + RINGSIZE - 1 + δ + j)
        = σ₂.sample (σ₂.sampleIndex - σ₂.firN + RINGSIZE - 1 + δ + j) := by
    intro δ hδ0 hδ1 j hj0 hjn
    have hb1 : 0 ≤ σ₁.sampleIndex - σ₂.firN + RINGSIZE - 1 + δ + j := by
      simp only [RINGSIZE] at *
      omega
    have hb2 : σ₁.sampleIndex - σ₂.firN + RINGSIZE - 1 + δ + j
        < 2 * RINGSIZE := by
      simp only [RINGSIZE] at *
      omega
    have hb3 : 0 ≤ σ₂.sampleIndex - σ₂.firN + RINGSIZE - 1 + δ + j := by
      simp only [RINGSIZE] at *
      omega
    have hb4 : σ₂.sampleIndex - σ₂.firN + RINGSIZE - 1 + δ + j
        < 2 * RINGSIZE := by
      simp only [RINGSIZE] at *
      omega
    have e3 : (σ₁.sampleIndex - σ₂.firN + RINGSIZE - 1 + δ + j) % RINGSIZE
        = ((σ₂.sampleIndex - σ₂.firN + RINGSIZE - 1 + δ + j) + k) % RINGSIZE := by
      have e1 : σ₁.sampleIndex - σ₂.firN + RINGSIZE - 1 + δ + j
          = σ₁.sampleIndex + (δ + j - σ₂.firN + RINGSIZE - 1) := by ring
      rw [e1, hik, Int.emod_add_emod]
      congr 1
      ring
    calc σ₁.sample (σ₁.sampleIndex - σ₂.firN + RINGSIZE - 1 + δ + j)
        = σ₁.sample ((σ₁.sampleIndex - σ₂.firN + RINGSIZE - 1 + δ + j) % RINGSIZE) :=
          sample_reduce σ₁ hd1 _ hb1 hb2
      _ = σ₁.sample (((σ₂.sampleIndex - σ₂.firN + RINGSIZE - 1 + δ + j) + k) % RINGSIZE) := by
          rw [e3]
      _ = σ₂.sample ((σ₂.sampleIndex - σ₂.firN + RINGSIZE - 1 + δ + j) % RINGSIZE) :=
          hshift _
      _ = σ₂.sample (σ₂.sampleIndex - σ₂.firN + RINGSIZE - 1 + δ + j) :=
          (sample_reduce σ₂ hd2 _ hb3 hb4).symm
  have hconv : ∀ (row : ℤ → ℝ) (δ : ℤ), 0 ≤ δ → δ ≤ 1 →
      convolve σ₁.sample (σ₁.sampleIndex - σ₂.firN + RINGSIZE - 1 + δ) row σ₂.firN
        = convolve σ₂.sample (σ₂.sampleIndex - σ₂.firN + RINGSIZE - 1 + δ) row σ₂.firN := by
    intro row δ h0 h1
    exact convolve_congr _ _ _ _ _ _ (key δ h0 h1)
  have hconv0 : ∀ row : ℤ → ℝ,
      convolve σ₁.sample (σ₁.sampleIndex - σ₂.firN + RINGSIZE - 1) row σ₂.firN
        = convolve σ₂.sample (σ₂.sampleIndex - σ₂.firN + RINGSIZE - 1) row σ₂.firN := by
    intro row
    have := hconv row 0 (le_refl 0) (by norm_num)
    simpa using this
  have hconv1 : ∀ row : ℤ → ℝ,
      convolve σ₁.sample (σ₁.sampleIndex - σ₂.firN + RINGSIZE - 1 + 1) row σ₂.firN
        = convolve σ₂.sample (σ₂.sampleIndex - σ₂.firN + RINGSIZE - 1 + 1) row σ₂.firN :=
    fun row => hconv row 1 (by norm_num) (le_refl 1)
  simp only [SincResampler.fir, hfn, hfr, hft]
  by_cases hcond : asr (t * σ₂.firRES) 10 + 1 = σ₂.firRES <;>
    simp only [hcond, if_true, if_false, if_pos, if_neg, hconv0, hconv1]

theorem writeSample_rel (k : ℤ) (σ₁ σ₂ : SincResampler)
    (hrel : SimRel k σ₁ σ₂) (x : ℝ) :
    SimRel k (σ₁.writeSample x) (σ₂.writeSample x) := by
  unfold SimRel at hrel
  obtain ⟨hcps, hfn, hfr, hft, hoff, hi0, hi1, hik, hn1, hn2, hd1, hd2,
    hshift⟩ := hrel
  have hidx1a : 0 ≤ σ₁.sampleIndex := by
    rw [hik]
    exact Int.emod_nonneg _ (by simp [RINGSIZE])
  have hidx1b : σ₁.sampleIndex < RINGSIZE := by
    rw [hik]
    exact Int.emod_lt_of_pos _ (by simp [RINGSIZE])
  unfold SimRel
  refine ⟨hcps, hfn, hfr, hft, hoff, ?_, ?_, ?_, hn1, hn2, ?_, ?_, ?_⟩
  · show 0 ≤ (σ₂.sampleIndex + 1) % RINGSIZE
    exact Int.emod_nonneg _ (by simp [RINGSIZE])
  · show (σ₂.sampleIndex + 1) % RINGSIZE < RINGSIZE
    exact Int.emod_lt_of_pos _ (by simp [RINGSIZE])
  · show (σ₁.sampleIndex + 1) % RINGSIZE
      = ((σ₂.sampleIndex + 1) % RINGSIZE + k) % RINGSIZE
    rw [hik, Int.emod_add_emod, Int.emod_add_emod]
    congr 1
    ring
  · intro i hib0 hib1
    show (if i + RINGSIZE = σ₁.sampleIndex ∨
            i + RINGSIZE = σ₁.sampleIndex + RINGSIZE then x
          else σ₁.sample (i + RINGSIZE))
        = (if i = σ₁.sampleIndex ∨ i = σ₁.sampleIndex + RINGSIZE then x
          else σ₁.sample i)
    have h2 : ¬ (i + RINGSIZE = σ₁.sampleIndex) := by
      simp only [RINGSIZE] at *
      omega
    have h3 : ¬ (i = σ₁.sampleIndex + RINGSIZE) := by
      simp only [RINGSIZE] at *
      omega
    by_cases h4 : i = σ₁.sampleIndex
    · rw [if_pos (Or.inr (by rw [h4])), if_pos (Or.inl h4)]
    · rw [if_neg ?_, if_neg ?_]
      · exact hd1 i hib0 hib1
      · intro hc
        rcases hc with hc | hc
        · exact h4 hc
        · exact h3 hc
      · intro hc
        rcases hc with hc | hc
        · exact h2 hc
        · exact h4 (by simp only [RINGSIZE] at *; omega)
  · intro i hib0 hib1
    show (if i + RINGSIZE = σ₂.sampleIndex ∨
            i + RINGSIZE = σ₂.sampleIndex + RINGSIZE then x
          else σ₂.sample (i + RINGSIZE))
        = (if i = σ₂.sampleIndex ∨ i = σ₂.sampleIndex + RINGSIZE then x
          else σ₂.sample i)
    have h2 : ¬ (i + RINGSIZE = σ₂.sampleIndex) := by
      simp only [RINGSIZE] at *
      omega
    have h3 : ¬ (i = σ₂.sampleIndex + RINGSIZE) := by
      simp only [RINGSIZE] at *
      omega
    by_cases h4 : i = σ₂.sampleIndex
    · rw [if_pos (Or.inr (by rw [h4])), if_pos (Or.inl h4)]
    · rw [if_neg ?_, if_neg ?_]
      · exact hd2 i hib0 hib1
      · intro hc
        rcases hc with hc | hc
        · exact h4 hc
        · exact h3 hc
      · intro hc
        rcases hc with hc | hc
        · exact h2 hc
        · exact h4 (by simp only [RINGSIZE] at *; omega)
  · intro i
    show (if (i + k) % RINGSIZE = σ₁.sampleIndex ∨
            (i + k) % RINGSIZE = σ₁.sampleIndex + RINGSIZE then x
          else σ₁.sample ((i + k) % RINGSIZE))
        = (if i % RINGSIZE = σ₂.sampleIndex ∨
            i % RINGSIZE = σ₂.sampleIndex + RINGSIZE then x
          else σ₂.sample (i % RINGSIZE))
    have hno1 : ¬ ((i + k) % RINGSIZE = σ₁.sampleIndex + RINGSIZE) := by
      simp only [RINGSIZE] at *
      omega
    have hno2 : ¬ (i % RINGSIZE = σ₂.sampleIndex + RINGSIZE) := by
      simp only [RINGSIZE] at *
      omega
    have hiff : ((i + k) % RINGSIZE = σ₁.sampleIndex)
        ↔ (i % RINGSIZE = σ₂.sampleIndex) := by
      rw [hik]
      simp only [RINGSIZE] at *
      omega
    by_cases hc : i % RINGSIZE = σ₂.sampleIndex
    · rw [if_pos (Or.inl (hiff.mpr hc)), if_pos (Or.inl hc)]
    · rw [if_neg ?_, if_neg ?_]
      · exact hshift i
      · intro hcc
        rcases hcc with hcc | hcc
        · exact hc hcc
        · exact hno2 hcc
      · intro hcc
        rcases hcc with hcc | hcc
        · exact hc (hiff.mp hcc)
        · exact hno1 hcc

theorem input_rel (k : ℤ) (σ₁ σ₂ : SincResampler) (hrel : SimRel k σ₁ σ₂)
    (x : ℝ) :
    (σ₁.input x).2 = (σ₂.input x).2 ∧
      SimRel k (σ₁.input x).1 (σ₂.input x).1 ∧
      ((σ₁.input x).2 = true →
        (σ₁.input x).1.outputValue = (σ₂.input x).1.outputValue) ∧
      ((σ₁.input x).2 = false →
        (σ₁.input x).1.outputValue = σ₁.outputValue ∧
        (σ₂.input x).1.outputValue = σ₂.outputValue) := by
  have hw := writeSample_rel k σ₁ σ₂ hrel x
  have hcps : σ₁.cyclesPerSample = σ₂.cyclesPerSample := hrel.1
  have hoff : σ₁.sampleOffset = σ₂.sampleOffset := hrel.2.2.2.2.1
  have hif₁ := input_fields σ₁ x
  have hif₂ := input_fields σ₂ x
  have hps₁ := input_phase_step σ₁ x
  have hps₂ := input_phase_step σ₂ x
  have hflag : (σ₁.input x).2 = (σ₂.input x).2 := by
    rw [hps₁.2.2.1, hps₂.2.2.1, hcps, hoff]
  have hoffnew : (σ₁.input x).1.sampleOffset = (σ₂.input x).1.sampleOffset := by
    rw [hps₁.2.1, hps₂.2.1, hcps, hoff]
  refine ⟨hflag, ?_, ?_, ?_⟩
  · obtain ⟨wcps, wfn, wfr, wft, woff, wi0, wi1, wik, wn1, wn2, wd1, wd2,
      wshift⟩ := hw
    refine ⟨?_, ?_, ?_, ?_, hoffnew, ?_, ?_, ?_, ?_, ?_, ?_, ?_, ?_⟩
    · rw [hif₁.1, hif₂.1, hcps]
    · rw [hif₁.2.1, hif₂.2.1, hrel.2.1]
    · rw [hif₁.2.2.1, hif₂.2.2.1, hrel.2.2.1]
    · rw [hif₁.2.2.2.1, hif₂.2.2.2.1, hrel.2.2.2.1]
    · rw [hif₂.2.2.2.2.2.1]
      exact wi0
    · rw [hif₂.2.2.2.2.2.1]
      exact wi1
    · rw [hif₁.2.2.2.2.2.1, hif₂.2.2.2.2.2.1]
      exact wik
    · rw [hif₂.2.1]
      exact hrel.2.2.2.2.2.2.2.2.1
    · rw [hif₂.2.1]
      exact hrel.2.2.2.2.2.2.2.2.2.1
    · intro i h0 h1
      rw [hif₁.2.2.2.2.1]
      exact wd1 i h0 h1
    · intro i h0 h1
      rw [hif₂.2.2.2.2.1]
      exact wd2 i h0 h1
    · intro i
      rw [hif₁.2.2.2.2.1, hif₂.2.2.2.2.1]
      exact wshift i
  · intro hb
    have hro₁ : σ₁.sampleOffset < 1024 := hps₁.1.mp hb
    have hro₂ : σ₂.sampleOffset < 1024 := by
      rw [← hoff]
      exact hro₁
    rw [hif₁.2.2.2.2.2.2, hif₂.2.2.2.2.2.2, if_pos hro₁, if_pos hro₂,
      fir_rel k _ _ hw, hoff]
  · intro hb
    have hro₁ : ¬ σ₁.sampleOffset < 1024 := by
      intro hcc
      rw [hps₁.1.mpr hcc] at hb
      exact absurd hb (by simp)
    have hro₂ : ¬ σ₂.sampleOffset < 1024 := by
      rw [← hoff]
      exact hro₁
    constructor
    · rw [hif₁.2.2.2.2.2.2, if_neg hro₁]
    · rw [hif₂.2.2.2.2.2.2, if_neg hro₂]

theorem run_rel (k : ℤ) (xs : List ℝ) : ∀ σ₁ σ₂ : SincResampler,
    SimRel k σ₁ σ₂ → σ₁.outputValue = σ₂.outputValue →
    σ₁.run xs = σ₂.run xs := by
  induction xs with
  | nil => intro σ₁ σ₂ _ _; rfl
  | cons x r ih =>
    intro σ₁ σ₂ hrel hout
    obtain ⟨hflag, hrel', hready, hnready⟩ := input_rel k σ₁ σ₂ hrel x
    have hout' : (σ₁.input x).1.outputValue = (σ₂.input x).1.outputValue := by
      cases hb : (σ₁.input x).2 with
      | true => exact hready hb
      | false =>
        obtain ⟨e1, e2⟩ := hnready hb
        rw [e1, e2, hout]
    show ((σ₁.input x).2, (σ₁.input x).1.outputValue) :: (σ₁.input x).1.run r
        = ((σ₂.input x).2, (σ₂.input x).1.outputValue) :: (σ₂.input x).1.run r
    rw [hflag, hout', ih _ _ hrel' hout']

theorem run_rel_start (k : ℤ) (σ₁ σ₂ : SincResampler)
    (hrel : SimRel k σ₁ σ₂) (hready : σ₁.sampleOffset < 1024)
    (xs : List ℝ) : σ₁.run xs = σ₂.run xs := by
  cases xs with
  | nil => rfl
  | cons x r =>
    obtain ⟨hflag, hrel', hreadyout, _⟩ := input_rel k σ₁ σ₂ hrel x
    have hb : (σ₁.input x).2 = true := (input_phase_step σ₁ x).1.mpr hready
    have hout' := hreadyout hb
    show ((σ₁.input x).2, (σ₁.input x).1.outputValue) :: (σ₁.input x).1.run r
        = ((σ₂.input x).2, (σ₂.input x).1.outputValue) :: (σ₂.input x).1.run r
    rw [hflag, hout', run_rel k r _ _ hrel' hout']

/-- C3: from any warm state with a valid write cursor and filter length,
`reset()` followed by any input sequence produces exactly the same
`(ready, output)` sequence as a freshly constructed instance with the
same filter parameters — even though `reset()` leaves the rotated
`sampleIndex` in place, the zeroed buffer is rotation-invariant and every
later convolution window reads the same values. -/
theorem reset_equals_fresh (σ : SincResampler)
    (h1 : 0 ≤ σ.sampleIndex) (h2 : σ.sampleIndex < RINGSIZE)
    (h3 : 1 ≤ σ.firN) (h4 : σ.firN < RINGSIZE) (xs : List ℝ) :
    (σ.reset).run xs
      = (mkFresh σ.cyclesPerSample σ.firN σ.firRES σ.firTable).run xs := by
  apply run_rel_start σ.sampleIndex
  · unfold SimRel
    refine ⟨rfl, rfl, rfl, rfl, rfl, le_refl 0, show (0 : ℤ) < RINGSIZE by decide, ?_,
      h3, h4, ?_, ?_, ?_⟩
    · show σ.sampleIndex = (0 + σ.sampleIndex) % RINGSIZE
      rw [zero_add, Int.emod_eq_of_lt h1 h2]
    · intro i hh0 hh1
      rfl
    · intro i hh0 hh1
      rfl
    · intro i
      rfl
  · show (0 : ℤ) < 1024
    decide

/-- C3 (witness): the equivalence theorem applies to the concrete warm
state `rsmpWarm` (cursor at 5, stale buffer and output value) and the
input sequence `[1, 2]`. -/
theorem reset_equals_fresh_witness :
    (0 ≤ rsmpWarm.sampleIndex ∧ rsmpWarm.sampleIndex < RINGSIZE ∧
      1 ≤ rsmpWarm.firN ∧ rsmpWarm.firN < RINGSIZE) ∧
      (rsmpWarm.reset).run [1, 2]
        = (mkFresh rsmpWarm.cyclesPerSample rsmpWarm.firN rsmpWarm.firRES
            rsmpWarm.firTable).run [1, 2] :=
  ⟨⟨by decide, by decide, by decide, by decide⟩,
    reset_equals_fresh rsmpWarm (by decide) (by decide) (by decide)
      (by decide) [1, 2]⟩
